import Mathlib

/-!
Verification of the mmg outbound-mail program (src/mmg.go).

Strings are modelled as `List Char`; Go byte slices as `List Nat` with every
byte below 256.  The source file concatenates two variants of the program;
the pure helpers (`normalizeLineEndings`, `parseHeaders`,
`extractEmailFromHeaders`, `isValidEmail`) are textually duplicated but
behaviourally identical, so each is embedded once.  The two `sendEmail`
assembly steps differ and are embedded separately (`assembleA`, `assembleB`).
-/

namespace Mmg

/-- The transport line terminator `"\r\n"`. -/
def crlf : List Char := ['\r', '\n']

/-- The header/body separator `"\r\n\r\n"`. -/
def crlf2 : List Char := ['\r', '\n', '\r', '\n']

/-- Go `strings.ReplaceAll(input, "\n", "\r\n")` (src/mmg.go:703-705).
Specialised to its single-character pattern: every `'\n'` is replaced by
`"\r\n"`, all other characters are kept. -/
def normalizeLineEndings : List Char → List Char
  | [] => []
  | '\n' :: rest => '\r' :: '\n' :: normalizeLineEndings rest
  | c :: rest => c :: normalizeLineEndings rest

/-- Formalization of "every line break is exactly the two-character
sequence CRLF": scanning left to right, every `'\r'` is immediately
followed by `'\n'` and every `'\n'` is immediately preceded by `'\r'`
(which also rules out `CR CR LF`). -/
def crlfOnly : List Char → Bool
  | [] => true
  | '\r' :: '\n' :: rest => crlfOnly rest
  | '\r' :: _ => false
  | '\n' :: _ => false
  | _ :: rest => crlfOnly rest

/-- Go `strings.SplitN(s, "\r\n\r\n", 2)` (src/mmg.go:730, 781, 1441, 1451):
split at the leftmost occurrence of the four-character separator.  `none`
models the one-element result (`len(parts) == 1`). -/
def splitBody : List Char → List Char × Option (List Char)
  | '\r' :: '\n' :: '\r' :: '\n' :: rest => ([], some rest)
  | [] => ([], none)
  | c :: rest =>
    let p := splitBody rest
    (c :: p.1, p.2)

/-- Go `strings.Split(s, "\r\n")` (src/mmg.go:732, 1453): split at every
occurrence of the two-character separator, scanning left to right. -/
def splitCRLF : List Char → List (List Char)
  | [] => [[]]
  | '\r' :: '\n' :: rest => [] :: splitCRLF rest
  | c :: rest =>
    match splitCRLF rest with
    | [] => [[c]]
    | seg :: segs => (c :: seg) :: segs

/-- Go `strings.Join(l, "\r\n")` (src/mmg.go:1466). -/
def joinCRLF : List (List Char) → List Char
  | [] => []
  | [l] => l
  | l :: ls => l ++ crlf ++ joinCRLF ls

/-- Go `strings.SplitN(line, ": ", 2)` (src/mmg.go:737, 1392): split at the
leftmost `": "`; `none` models the one-element result. -/
def splitColonSpace : List Char → List Char × Option (List Char)
  | ':' :: ' ' :: rest => ([], some rest)
  | [] => ([], none)
  | c :: rest =>
    let p := splitColonSpace rest
    (c :: p.1, p.2)

/-- Go `strings.ToLower` restricted to ASCII (all keys looked up by the
program are ASCII): `'A'`-`'Z'` are shifted to lower case. -/
def asciiLower (c : Char) : Char :=
  if 65 ≤ c.toNat ∧ c.toNat ≤ 90 then Char.ofNat (c.toNat + 32) else c

/-- `strings.ToLower` over a whole string. -/
def listToLower (s : List Char) : List Char := s.map asciiLower

/-- Whether a character is in Go `unicode.IsSpace`'s ASCII subset
`'\t' '\n' '\v' '\f' '\r' ' '`; the program only feeds ASCII header text
through `strings.TrimSpace`. -/
def isSpaceChar (c : Char) : Bool :=
  c = ' ' || c = '\t' || c = '\n' || c = '\x0b' || c = '\x0c' || c = '\r'

/-- Drop leading whitespace. -/
def dropWhile' : List Char → List Char
  | [] => []
  | c :: rest => if isSpaceChar c then dropWhile' rest else c :: rest

/-- Go `strings.TrimSpace` (ASCII): drop whitespace from both ends. -/
def trimSpace (s : List Char) : List Char :=
  ((dropWhile' s.reverse).reverse |> dropWhile')

/-- Go `strings.TrimRight(s, "\r\n")` (src/mmg.go:1459, 1462): drop trailing
characters belonging to the cutset `{'\r', '\n'}`. -/
def trimRightCRLF (s : List Char) : List Char :=
  ((s.reverse.dropWhile fun c => c = '\r' || c = '\n')).reverse

/-- Go map semantics for `headers[k] = v`: overwrite the binding if the key
is present, otherwise append it.  The header map of `parseHeaders` is
modelled as an association list with unique keys. -/
def mapInsert (m : List (List Char × List Char)) (k v : List Char) :
    List (List Char × List Char) :=
  match m with
  | [] => [(k, v)]
  | (k', v') :: rest =>
    if k' = k then (k, v) :: rest else (k', v') :: mapInsert rest k v

/-- Go map lookup `m[k]`. -/
def mapLookup (m : List (List Char × List Char)) (k : List Char) :
    Option (List Char) :=
  match m with
  | [] => none
  | (k', v') :: rest => if k' = k then some v' else mapLookup rest k

/-- The header-line loop of `parseHeaders` (src/mmg.go:733-741 and
1388-1398): stop at the first empty line; keep only lines containing
`": "`; keys are lowered and trimmed, values trimmed; later duplicates
overwrite earlier ones (Go map assignment). -/
def parseLines (m : List (List Char × List Char)) :
    List (List Char) → List (List Char × List Char)
  | [] => m
  | l :: rest =>
    if l = [] then m
    else
      match splitColonSpace l with
      | (k, some v) =>
        parseLines (mapInsert m (trimSpace (listToLower k)) (trimSpace v)) rest
      | (_, none) => parseLines m rest

/-- Go `parseHeaders` (src/mmg.go:728-743, duplicated at 1382-1400 with the
same behaviour). -/
def parseHeaders (rawContent : List Char) : List (List Char × List Char) :=
  parseLines [] (splitCRLF (splitBody rawContent).1)

/-- Last index of a character, mirroring Go `strings.LastIndex` for a
single-character pattern; `none` corresponds to Go's `-1` (the call sites
guard with `strings.Contains`). -/
def lastIdxOf : List Char → Char → Option Nat
  | [], _ => none
  | a :: rest, c =>
    match lastIdxOf rest c with
    | some i => some (i + 1)
    | none => if a = c then some 0 else none

/-- Go `extractEmailFromHeaders` (src/mmg.go:745-755, duplicated at
1402-1412).  The result `none` models the runtime panic of the slice
expression `value[start : end+1]` when `start > end+1` (Go slice bounds
violation); `some s` models a normal return of `s`. -/
def extractEmailFromHeaders (headers : List (List Char × List Char))
    (headerKey : List Char) : Option (List Char) :=
  match mapLookup headers (listToLower headerKey) with
  | some value =>
    if '<' ∈ value ∧ '>' ∈ value then
      let start := (lastIdxOf value '<').getD 0
      let stop := (lastIdxOf value '>').getD 0
      if start ≤ stop + 1 then some ((value.drop start).take (stop + 1 - start))
      else none
    else some value
  | none => some []

/-- Go `isValidEmail` (src/mmg.go:757-759, duplicated at 1414-1416). -/
def isValidEmail (email : List Char) : Bool :=
  ('@' ∈ email : Bool) && ('.' ∈ email : Bool)

/-- Whether a header line begins, case-insensitively, with `"subject:"`
(src/mmg.go:1457). -/
def isSubjectLine (l : List Char) : Bool :=
  "subject:".data.isPrefixOf (listToLower l)

/-- One step of the header re-emission loop of the second `sendEmail`
variant (src/mmg.go:1455-1465): append the original line, then, if it is a
subject line, append the trimmed synthesized `Message-ID` and `Date` lines
(each only when it was synthesized, i.e. nonempty). -/
def buildStep (mH dH : List Char) (acc : List (List Char)) (l : List Char) :
    List (List Char) :=
  let acc := acc ++ [l]
  if isSubjectLine l then
    let acc := if mH ≠ [] then acc ++ [trimRightCRLF mH] else acc
    if dH ≠ [] then acc ++ [trimRightCRLF dH] else acc
  else acc

/-- The header re-emission loop of the second `sendEmail` variant
(src/mmg.go:1453-1465), a fold over the header lines. -/
def buildNewHeaders (mH dH : List Char) (lines : List (List Char)) :
    List (List Char) :=
  lines.foldl (buildStep mH dH) []

/-- Message assembly of the first `sendEmail` variant (src/mmg.go:781-786):
synthesized headers are always placed between the header block and the
separator. -/
def assembleA (rawContent mH dH : List Char) : List Char :=
  match splitBody rawContent with
  | (h, some body) => h ++ crlf ++ mH ++ dH ++ crlf2 ++ body
  | (_, none) => rawContent ++ crlf ++ mH ++ dH ++ crlf

/-- Message assembly of the second `sendEmail` variant
(src/mmg.go:1441-1469).  The value computed at lines 1443-1448 is
unconditionally overwritten by the block at lines 1451-1469, so only the
latter is modelled: with a header/body separator the header lines are
re-emitted through `buildNewHeaders`; without one the synthesized headers
are appended to the raw text. -/
def assembleB (rawContent mH dH : List Char) : List Char :=
  match splitBody rawContent with
  | (h, some body) =>
    joinCRLF (buildNewHeaders mH dH (splitCRLF h)) ++ crlf2 ++ body
  | (_, none) => rawContent ++ crlf ++ mH ++ dH ++ crlf

/-- Outcome of the compose phase of `sendEmail` before any transport
activity. -/
inductive SendOutcome where
  | panicked
  | invalidAddress
  | proceed (msg : List Char)
deriving DecidableEq, Repr

/-- The synthesized `Message-ID` header string
(`fmt.Sprintf("Message-ID: %s\r\n", ...)`, src/mmg.go:1433-1435): empty when
the parsed headers already contain the key. -/
def mkMsgIDHeader (headers : List (List Char × List Char))
    (msgID : List Char) : List Char :=
  if (mapLookup headers "message-id".data).isNone then
    "Message-ID: ".data ++ msgID ++ crlf
  else []

/-- The synthesized `Date` header string (src/mmg.go:1436-1438): empty when
the parsed headers already contain the key.  `dateStr` stands for the
formatted current time. -/
def mkDateHeader (headers : List (List Char × List Char))
    (dateStr : List Char) : List Char :=
  if (mapLookup headers "date".data).isNone then
    "Date: ".data ++ dateStr ++ crlf
  else []

/-- The compose phase of the second `sendEmail` variant
(src/mmg.go:1418-1469): normalize, parse headers, extract and validate the
two addresses (an invalid one aborts with a dialog before the transport
goroutine is started), synthesize missing headers and assemble the message.
`msgID` and `dateStr` stand for the values produced by
`generateMessageID()` and `time.Now()`. -/
def sendEmailCompose (text msgID dateStr : List Char) : SendOutcome :=
  let rawContent := normalizeLineEndings text
  let headers := parseHeaders rawContent
  match extractEmailFromHeaders headers "from".data with
  | none => .panicked
  | some fromAddr =>
    match extractEmailFromHeaders headers "to".data with
    | none => .panicked
    | some toAddr =>
      if isValidEmail fromAddr && isValidEmail toAddr then
        .proceed (assembleB rawContent (mkMsgIDHeader headers msgID)
          (mkDateHeader headers dateStr))
      else .invalidAddress

/-- The transport stages of the send goroutine (src/mmg.go:1473-1592), in
program order. -/
inductive Stage where
  | proxyConnect | tcpDial | smtpInit | startTLS | auth
  | mailFrom | rcptTo | dataCmd | writeBody | quit
deriving DecidableEq, Repr

/-- Attempt stages in order, stopping after the first failure (the
goroutine returns on every error: fail-fast, no retry). -/
def attemptUntil (oracle : Stage → Bool) : List Stage → List Stage
  | [] => []
  | s :: rest => if oracle s then s :: attemptUntil oracle rest else [s]

/-- The stage trace of the transport goroutine: the main sequence is
attempted fail-fast; `auth` participates only when both credentials are
nonempty; `quit` is attempted (via `defer client.Quit()`) whenever the SMTP
client was created. -/
def transportStages (oracle : Stage → Bool) (hasAuth : Bool) : List Stage :=
  let main := attemptUntil oracle
    ([Stage.proxyConnect, Stage.tcpDial, Stage.smtpInit, Stage.startTLS] ++
      (if hasAuth then [Stage.auth] else []) ++
      [Stage.mailFrom, Stage.rcptTo, Stage.dataCmd, Stage.writeBody])
  if Stage.smtpInit ∈ main ∧ oracle Stage.smtpInit then main ++ [Stage.quit]
  else main

/-- The stages actually attempted by a call of `sendEmail`: the transport
goroutine only runs when the compose phase succeeded. -/
def sendEmailStages (text msgID dateStr : List Char)
    (oracle : Stage → Bool) (hasAuth : Bool) : List Stage :=
  match sendEmailCompose text msgID dateStr with
  | .proceed _ => transportStages oracle hasAuth
  | _ => []

/-- The alphabet `"abcdefghijklmnopqrstuvwxyz0123456789"`
(src/mmg.go:708). -/
def alphanumericChars : List Char :=
  "abcdefghijklmnopqrstuvwxyz0123456789".data

/-- The character `'0' + m`, as decimal formatting produces it. -/
def digitChar (m : Nat) : Char := Char.ofNat (48 + m)

/-- Decimal representation of a natural number, as `fmt.Sprintf("%d", n)`
prints it (the Unix timestamps the program formats are non-negative). -/
def natToDec (n : Nat) : List Char :=
  if n < 10 then [digitChar n]
  else natToDec (n / 10) ++ [digitChar (n % 10)]
termination_by n
decreasing_by exact Nat.div_lt_self (by omega) (by omega)

/-- Go `generateMessageID` (src/mmg.go:707-726).  The draws from
`rand.Int` are modelled by the parameters `r1` (ten indices into the
36-character alphabet), `rh` (five values below 26) and `rt` (two values
below 26); `ts` models `time.Now().Unix()`.  The format string
`"<%s.%d@%s.%s>"` produces the concatenation below. -/
def generateMessageID (r1 : Fin 10 → Fin 36) (ts : Nat)
    (rh : Fin 5 → Fin 26) (rt : Fin 2 → Fin 26) : List Char :=
  '<' ::
    (((List.finRange 10).map fun i => alphanumericChars.getD (r1 i).val 'a') ++
      '.' :: (natToDec ts ++
        '@' :: (((List.finRange 5).map fun i => Char.ofNat (97 + (rh i).val)) ++
          '.' :: (((List.finRange 2).map fun i =>
            Char.ofNat (97 + (rt i).val)) ++ ['>']))))

/-- Whether a character is in `[a-z0-9]`. -/
def isLowerAlnumChar (c : Char) : Bool :=
  (97 ≤ c.toNat && c.toNat ≤ 122) || (48 ≤ c.toNat && c.toNat ≤ 57)

/-- Whether a character is a decimal digit. -/
def isDigitCharB (c : Char) : Bool := 48 ≤ c.toNat && c.toNat ≤ 57

/-- Whether a character is in `[a-z]`. -/
def isLowerAlphaChar (c : Char) : Bool := 97 ≤ c.toNat && c.toNat ≤ 122

/-! ### The esub token scheme

Go byte slices are modelled as `List Nat` with every element below 256. -/

/-- Lowercase hex digit of a value below 16 (Go `encoding/hex`'s table
`"0123456789abcdef"`). -/
def hexDigitLower (n : Nat) : Char :=
  if n < 10 then Char.ofNat (48 + n) else Char.ofNat (87 + n)

/-- Go `hex.EncodeToString`: two lowercase digits per byte, high nibble
first. -/
def hexEncode (bs : List Nat) : List Char :=
  bs.flatMap fun b => [hexDigitLower (b / 16), hexDigitLower (b % 16)]

/-- Value of one hex digit as Go `encoding/hex` accepts it: `0`-`9`,
`a`-`f` and `A`-`F`. -/
def hexDigitVal (c : Char) : Option Nat :=
  if 48 ≤ c.toNat ∧ c.toNat ≤ 57 then some (c.toNat - 48)
  else if 97 ≤ c.toNat ∧ c.toNat ≤ 102 then some (c.toNat - 87)
  else if 65 ≤ c.toNat ∧ c.toNat ≤ 70 then some (c.toNat - 55)
  else none

/-- Go `hex.DecodeString`: fails on odd length or any non-hex digit. -/
def hexDecode : List Char → Option (List Nat)
  | [] => some []
  | [_] => none
  | c1 :: c2 :: rest =>
    match hexDigitVal c1, hexDigitVal c2, hexDecode rest with
    | some v1, some v2, some bs => some ((16 * v1 + v2) :: bs)
    | _, _, _ => none

/-- Addition of 32-bit words. -/
def addw (x y : Nat) : Nat := (x + y) % 4294967296

/-- Left rotation of a 32-bit word by `r` positions, `0 < r < 32`. -/
def rotlw (x r : Nat) : Nat :=
  ((x % 2 ^ (32 - r)) * 2 ^ r) + x / 2 ^ (32 - r)

/-- Little-endian packing of bytes into 32-bit words (whole groups of
four). -/
def bytesToWords : List Nat → List Nat
  | b0 :: b1 :: b2 :: b3 :: rest =>
    (b0 + 256 * b1 + 65536 * b2 + 16777216 * b3) :: bytesToWords rest
  | _ => []

/-- Little-endian bytes of a 32-bit word. -/
def wordBytes (w : Nat) : List Nat :=
  [w % 256, w / 256 % 256, w / 65536 % 256, w / 16777216 % 256]

/-- The ChaCha20 quarter round on state positions `a b c d` (RFC 8439,
as implemented by `golang.org/x/crypto/chacha20`). -/
def quarterRound (st : List Nat) (a b c d : Nat) : List Nat :=
  let va := addw (st.getD a 0) (st.getD b 0)
  let vd := rotlw (Nat.xor (st.getD d 0) va) 16
  let vc := addw (st.getD c 0) vd
  let vb := rotlw (Nat.xor (st.getD b 0) vc) 12
  let va2 := addw va vb
  let vd2 := rotlw (Nat.xor vd va2) 8
  let vc2 := addw vc vd2
  let vb2 := rotlw (Nat.xor vb vc2) 7
  (((st.set a va2).set b vb2).set c vc2).set d vd2

/-- One ChaCha20 double round: four column rounds, four diagonal
rounds. -/
def doubleRound (st : List Nat) : List Nat :=
  let s1 := quarterRound st 0 4 8 12
  let s2 := quarterRound s1 1 5 9 13
  let s3 := quarterRound s2 2 6 10 14
  let s4 := quarterRound s3 3 7 11 15
  let s5 := quarterRound s4 0 5 10 15
  let s6 := quarterRound s5 1 6 11 12
  let s7 := quarterRound s6 2 7 8 13
  quarterRound s7 3 4 9 14

/-- Iterated double rounds (ChaCha20 runs ten of them). -/
def chachaRounds : Nat → List Nat → List Nat
  | 0, st => st
  | n + 1, st => chachaRounds n (doubleRound st)

/-- One 64-byte ChaCha20 keystream block.  The Go cipher created by
`chacha20.NewUnauthenticatedCipher` starts at counter 0. -/
def chacha20Block (key nonce : List Nat) (counter : Nat) : List Nat :=
  let st0 := [1634760805, 857760878, 2036477234, 1797285236] ++
    bytesToWords key ++ ([counter % 4294967296] ++ bytesToWords nonce)
  (List.zipWith addw (chachaRounds 10 st0) st0).flatMap wordBytes

/-- The first `n` bytes of the ChaCha20 keystream. -/
def chachaKeystream (key nonce : List Nat) (n : Nat) : List Nat :=
  (((List.range ((n + 63) / 64)).flatMap fun i =>
    chacha20Block key nonce i)).take n

/-- Whether `chacha20.NewUnauthenticatedCipher(key, nonce)` succeeds: the
library requires a 32-byte key and (for the sizes this program uses) a
12-byte nonce; on other sizes it returns an error. -/
def chacha20New (key nonce : List Nat) : Bool :=
  key.length == 32 && nonce.length == 12

/-- Go `cipher.XORKeyStream(dst, src)`: the source XORed with the
keystream. -/
def chacha20XORKeyStream (key nonce plain : List Nat) : List Nat :=
  List.zipWith Nat.xor plain (chachaKeystream key nonce plain.length)

/-- Models the external `argon2.IDKey` of `golang.org/x/crypto/argon2`
(Modelled from the spec: the Argon2id key-derivation function is library
code outside this repository, and its memory-hard internals — 64 MiB of
Blake2b mixing — are not reproduced; every claim proved about the token
scheme depends only on the call being a deterministic function of its
arguments returning `keyLen` bytes, which this deterministic stand-in
provides). -/
def argon2IDKey (password salt : List Nat)
    (time memory threads keyLen : Nat) : List Nat :=
  (List.range keyLen).map fun i =>
    (password ++ salt).foldl (fun a b => (a * 131 + b + 1) % 256)
      ((i + time + memory + threads) % 256)

/-- The byte conversion `[]byte(s)` for the ASCII strings the program
derives keys from (one byte per character). -/
def strBytes (s : List Char) : List Nat := s.map Char.toNat

/-- The esub key derivation (src/mmg.go:111-122): Argon2id over the
passphrase with the fixed salt `"fixed-salt-1234"`, 3 iterations, 64 MiB
of memory, 4 threads, 32-byte output. -/
def deriveKey (key : List Char) : List Nat :=
  argon2IDKey (strBytes key) (strBytes "fixed-salt-1234".data)
    3 (64 * 1024) 4 32

/-- The 32-byte SHA3-256 digest of the constant `"text"`
(`sha3.Sum256([]byte("text"))`, src/mmg.go:143 and 162): a fixed constant
of the program, embedded by value. -/
def textHash : List Nat :=
  [152, 123, 67, 219, 212, 185, 199, 27, 220, 159, 98, 98,
   168, 15, 221, 229, 229, 182, 224, 149, 172, 173, 251, 171,
   254, 76, 175, 200, 243, 75, 65, 154]

/-- Go `esubtest` (src/mmg.go:124-148): reject unless the subject is
exactly 48 characters that hex-decode into 24 bytes; split into nonce and
received ciphertext, recompute the expected ciphertext from the derived
key, and accept iff the hex encodings match. -/
def esubtest (key subject : List Char) : Bool :=
  if subject.length ≠ 48 then false
  else
    match hexDecode subject with
    | none => false
    | some esubBytes =>
      if esubBytes.length ≠ 24 then false
      else
        let nonce := esubBytes.take 12
        let receivedCiphertext := esubBytes.drop 12
        let k := deriveKey key
        if chacha20New k nonce then
          let expected := chacha20XORKeyStream k nonce (textHash.take 12)
          hexEncode expected == hexEncode receivedCiphertext
        else false

/-- Go `esubgen` (src/mmg.go:150-167): `nonce` models the 12 random bytes
drawn from `crypto/rand`; the token is the lowercase hex encoding of the
nonce followed by the 12-byte ciphertext.  `none` models the panic taken
when the cipher constructor rejects the key/nonce sizes. -/
def esubgen (key : List Char) (nonce : List Nat) : Option (List Char) :=
  let k := deriveKey key
  if chacha20New k nonce then
    some (hexEncode (nonce ++ chacha20XORKeyStream k nonce (textHash.take 12)))
  else none

/-- ASCII upper-casing, used to state case-invariance of token
verification. -/
def asciiUpper (c : Char) : Char :=
  if 97 ≤ c.toNat ∧ c.toNat ≤ 122 then Char.ofNat (c.toNat - 32) else c

/-! ### Lemmas about the line splitter -/

/-- Unfolding `splitCRLF` on a cons cell that does not start with CRLF. -/
theorem splitCRLF_cons_ne (c : Char) (rest : List Char)
    (h : ∀ rest', c = '\r' → rest = '\n' :: rest' → False) :
    splitCRLF (c :: rest) =
      match splitCRLF rest with
      | [] => [[c]]
      | seg :: segs => (c :: seg) :: segs := by
  rw [splitCRLF.eq_def]
  split
  · rename_i heq; cases heq
  · rename_i rest' heq
    cases heq
    exact (h rest' rfl rfl).elim
  · rename_i c' rest' hne heq
    cases heq
    rfl

/-- `strings.Split` never returns an empty slice. -/
theorem splitCRLF_ne_nil (s : List Char) : splitCRLF s ≠ [] := by
  induction s using splitCRLF.induct with
  | case1 => simp [splitCRLF]
  | case2 rest ih => simp [splitCRLF]
  | case3 c rest h hnil ih => exact absurd hnil ih
  | case4 c rest h seg segs heq ih =>
    rw [splitCRLF_cons_ne c rest h, heq]
    simp

/-- Joining the split of a string with the same separator reconstructs the
string. -/
theorem join_split (s : List Char) : joinCRLF (splitCRLF s) = s := by
  induction s using splitCRLF.induct with
  | case1 => rfl
  | case2 rest ih =>
    simp only [splitCRLF]
    cases h : splitCRLF rest with
    | nil => exact absurd h (splitCRLF_ne_nil rest)
    | cons seg segs =>
      rw [h] at ih
      simpa [joinCRLF, crlf] using ih
  | case3 c rest h hnil ih => exact absurd hnil (splitCRLF_ne_nil rest)
  | case4 c rest h seg segs heq ih =>
    rw [splitCRLF_cons_ne c rest h, heq]
    rw [heq] at ih
    cases segs with
    | nil => simpa [joinCRLF] using ih
    | cons s2 ss => simpa [joinCRLF, crlf] using ih

/-! ### The header re-emission loop -/

/-- The synthesized header lines inserted after a subject line: the trimmed
`Message-ID` line (when synthesized) followed by the trimmed `Date` line
(when synthesized). -/
def synthLines (mH dH : List Char) : List (List Char) :=
  (if mH ≠ [] then [trimRightCRLF mH] else []) ++
    (if dH ≠ [] then [trimRightCRLF dH] else [])

theorem buildStep_eq (mH dH : List Char) (acc : List (List Char))
    (l : List Char) :
    buildStep mH dH acc l =
      acc ++ l :: (if isSubjectLine l then synthLines mH dH else []) := by
  unfold buildStep synthLines
  by_cases hs : isSubjectLine l
  · simp only [hs, if_true]
    by_cases hm : mH ≠ [] <;> by_cases hd : dH ≠ [] <;> simp [hm, hd]
  · simp [hs]

theorem buildNewHeaders_go (mH dH : List Char) (lines : List (List Char))
    (acc : List (List Char)) :
    lines.foldl (buildStep mH dH) acc =
      acc ++ lines.flatMap
        (fun l => l :: (if isSubjectLine l then synthLines mH dH else [])) := by
  induction lines generalizing acc with
  | nil => simp
  | cons l rest ih =>
    simp only [List.foldl_cons, List.flatMap_cons, buildStep_eq, ih]
    simp

/-- The re-emission loop emits every original header line in order and
splices the synthesized lines immediately after each subject line. -/
theorem buildNewHeaders_eq (mH dH : List Char) (lines : List (List Char)) :
    buildNewHeaders mH dH lines =
      lines.flatMap
        (fun l => l :: (if isSubjectLine l then synthLines mH dH else [])) := by
  unfold buildNewHeaders
  simpa using buildNewHeaders_go mH dH lines []

theorem flatMap_no_subject (mH dH : List Char) (lines : List (List Char))
    (h : ∀ l ∈ lines, isSubjectLine l = false) :
    lines.flatMap
        (fun l => l :: (if isSubjectLine l then synthLines mH dH else [])) =
      lines := by
  induction lines with
  | nil => rfl
  | cons l rest ih =>
    have hl := h l (by simp)
    simp only [List.flatMap_cons, hl, if_neg (by simp [hl] : ¬isSubjectLine l = true)]
    simp only [List.nil_append, List.cons_append]
    rw [ih fun x hx => h x (by simp [hx])]
    simp

theorem count_flatMap_pair (x mL dL : List Char)
    (hx : ([mL, dL].count x) = 1) (lines : List (List Char)) :
    (lines.flatMap (fun l => l :: (if isSubjectLine l then [mL, dL] else []))).count x =
      lines.countP (fun l => isSubjectLine l) + lines.count x := by
  induction lines with
  | nil => rfl
  | cons l rest ih =>
    simp only [List.flatMap_cons, List.count_cons, List.countP_cons, List.count_append]
    by_cases hs : isSubjectLine l
    · simp only [hs, if_true]
      rw [hx, ih]
      omega
    · simp only [hs, if_false]
      rw [ih]
      norm_num
      split <;> omega

/-! ### Claim C1 -/

/-- C1, counterexample.  The claim states that for a header block with no
`subject:` line the synthesized `Message-ID`/`Date` lines are appended at
the end of the header block.  On the concrete message
`"From: a@x.y\r\nTo: b@x.y\r\n\r\nbody"` the assembly step of `sendEmail`
(src/mmg.go:1451-1469) instead drops the synthesized lines entirely: the
output equals the input and differs from the output the claim predicts. -/
theorem c1_counterexample :
    assembleB "From: a@x.y\r\nTo: b@x.y\r\n\r\nbody".data
        "Message-ID: <m>\r\n".data "Date: D\r\n".data
      = "From: a@x.y\r\nTo: b@x.y\r\n\r\nbody".data ∧
    assembleB "From: a@x.y\r\nTo: b@x.y\r\n\r\nbody".data
        "Message-ID: <m>\r\n".data "Date: D\r\n".data
      ≠ "From: a@x.y\r\nTo: b@x.y\r\nMessage-ID: <m>\r\nDate: D\r\n\r\nbody".data :=
  ⟨by decide, by decide⟩

/-- C1, amended.  For every message with a header/body separator, the
assembly step re-emits the original header lines in their original order
with the synthesized lines placed immediately after each `subject:` line
(first conjunct, the flat-map form), and when the header block contains no
`subject:` line the message is emitted unchanged — the synthesized lines
are dropped, not appended (second conjunct); in both cases the body is
unchanged byte-for-byte. -/
theorem c1_amended (raw h b mH dH : List Char)
    (hsplit : splitBody raw = (h, some b)) :
    assembleB raw mH dH =
      joinCRLF ((splitCRLF h).flatMap
        (fun l => l :: (if isSubjectLine l then synthLines mH dH else []))) ++
        crlf2 ++ b
    ∧ ((∀ l ∈ splitCRLF h, isSubjectLine l = false) →
        assembleB raw mH dH = h ++ crlf2 ++ b) := by
  have h1 : assembleB raw mH dH =
      joinCRLF (buildNewHeaders mH dH (splitCRLF h)) ++ crlf2 ++ b := by
    unfold assembleB
    rw [hsplit]
  refine ⟨?_, ?_⟩
  · rw [h1, buildNewHeaders_eq]
  · intro hns
    rw [h1, buildNewHeaders_eq, flatMap_no_subject _ _ _ hns, join_split]

/-- C1, witness: the amended theorem applied to the concrete message
`"From: a@x.y\r\nSubject: s\r\n\r\nB"`. -/
theorem c1_witness :
    assembleB "From: a@x.y\r\nSubject: s\r\n\r\nB".data
        "Message-ID: <m>\r\n".data "Date: D\r\n".data
      = joinCRLF ((splitCRLF "From: a@x.y\r\nSubject: s".data).flatMap
          (fun l => l :: (if isSubjectLine l then
            synthLines "Message-ID: <m>\r\n".data "Date: D\r\n".data else []))) ++
          crlf2 ++ "B".data
    ∧ ((∀ l ∈ splitCRLF "From: a@x.y\r\nSubject: s".data,
          isSubjectLine l = false) →
        assembleB "From: a@x.y\r\nSubject: s\r\n\r\nB".data
            "Message-ID: <m>\r\n".data "Date: D\r\n".data
          = "From: a@x.y\r\nSubject: s".data ++ crlf2 ++ "B".data) :=
  c1_amended "From: a@x.y\r\nSubject: s\r\n\r\nB".data
    "From: a@x.y\r\nSubject: s".data "B".data
    "Message-ID: <m>\r\n".data "Date: D\r\n".data (by decide)

/-! ### Claim C9 -/

/-- C9, confirmed.  For a message whose header block contains several
`subject:` lines and whose `Message-ID` and `Date` headers are both
synthesized, the assembly step inserts the synthesized lines after every
`subject:` line: each synthesized line occurs in the emitted header lines
once per `subject:` line (beyond its occurrences in the original lines),
and the emitted message is the joined new header lines plus the unchanged
body. -/
theorem c9_every_subject (raw h b mH dH : List Char)
    (hsplit : splitBody raw = (h, some b))
    (hm : mH ≠ []) (hd : dH ≠ [])
    (hne : trimRightCRLF mH ≠ trimRightCRLF dH) :
    assembleB raw mH dH =
      joinCRLF (buildNewHeaders mH dH (splitCRLF h)) ++ crlf2 ++ b
    ∧ (buildNewHeaders mH dH (splitCRLF h)).count (trimRightCRLF mH)
        = (splitCRLF h).countP (fun l => isSubjectLine l)
          + (splitCRLF h).count (trimRightCRLF mH)
    ∧ (buildNewHeaders mH dH (splitCRLF h)).count (trimRightCRLF dH)
        = (splitCRLF h).countP (fun l => isSubjectLine l)
          + (splitCRLF h).count (trimRightCRLF dH) := by
  have hsyn : synthLines mH dH = [trimRightCRLF mH, trimRightCRLF dH] := by
    unfold synthLines
    rw [if_pos hm, if_pos hd]
    rfl
  refine ⟨?_, ?_, ?_⟩
  · unfold assembleB
    rw [hsplit]
  · rw [buildNewHeaders_eq, hsyn]
    have hne' : trimRightCRLF dH ≠ trimRightCRLF mH := fun hh => hne hh.symm
    exact count_flatMap_pair _ _ _ (by simp [List.count_cons, hne']) _
  · rw [buildNewHeaders_eq, hsyn]
    exact count_flatMap_pair _ _ _ (by simp [List.count_cons, hne]) _

/-- C9, witness: the theorem applied to a concrete message with two
`Subject:` lines; each synthesized line is counted twice in the emitted
header lines. -/
theorem c9_witness :
    assembleB "A: 1\r\nSubject: x\r\nB: 2\r\nSubject: y\r\n\r\nbody".data
        "Message-ID: <m>\r\n".data "Date: D\r\n".data
      = joinCRLF (buildNewHeaders "Message-ID: <m>\r\n".data "Date: D\r\n".data
          (splitCRLF "A: 1\r\nSubject: x\r\nB: 2\r\nSubject: y".data)) ++
          crlf2 ++ "body".data
    ∧ (buildNewHeaders "Message-ID: <m>\r\n".data "Date: D\r\n".data
          (splitCRLF "A: 1\r\nSubject: x\r\nB: 2\r\nSubject: y".data)).count
          (trimRightCRLF "Message-ID: <m>\r\n".data)
        = (splitCRLF "A: 1\r\nSubject: x\r\nB: 2\r\nSubject: y".data).countP
            (fun l => isSubjectLine l)
          + (splitCRLF "A: 1\r\nSubject: x\r\nB: 2\r\nSubject: y".data).count
            (trimRightCRLF "Message-ID: <m>\r\n".data)
    ∧ (buildNewHeaders "Message-ID: <m>\r\n".data "Date: D\r\n".data
          (splitCRLF "A: 1\r\nSubject: x\r\nB: 2\r\nSubject: y".data)).count
          (trimRightCRLF "Date: D\r\n".data)
        = (splitCRLF "A: 1\r\nSubject: x\r\nB: 2\r\nSubject: y".data).countP
            (fun l => isSubjectLine l)
          + (splitCRLF "A: 1\r\nSubject: x\r\nB: 2\r\nSubject: y".data).count
            (trimRightCRLF "Date: D\r\n".data) :=
  c9_every_subject "A: 1\r\nSubject: x\r\nB: 2\r\nSubject: y\r\n\r\nbody".data
    "A: 1\r\nSubject: x\r\nB: 2\r\nSubject: y".data "body".data
    "Message-ID: <m>\r\n".data "Date: D\r\n".data
    (by decide) (by decide) (by decide) (by decide)

/-! ### Claim C2 -/

theorem crlfOnly_cons (c : Char) (xs : List Char)
    (h1 : c ≠ '\r') (h2 : c ≠ '\n') :
    crlfOnly (c :: xs) = crlfOnly xs := by
  rw [crlfOnly.eq_def]
  split
  · rename_i heq; cases heq
  · rename_i rest heq
    cases heq
    exact absurd rfl h1
  · rename_i rest hne heq
    cases heq
    exact absurd rfl h1
  · rename_i rest heq
    cases heq
    exact absurd rfl h2
  · rename_i c' rest hne1 hne2 hne3 heq
    cases heq
    rfl

/-- C2, counterexample.  The claim states that `normalizeLineEndings`
normalizes arbitrary inputs, including ones that already contain CRLF, to
CRLF-only line breaks.  On the input `"a\r\nb"` the code
(`strings.ReplaceAll(input, "\n", "\r\n")`, src/mmg.go:703-705) produces
`"a\r\r\nb"`, which contains the forbidden sequence `CR CR LF`. -/
theorem c2_counterexample :
    normalizeLineEndings "a\r\nb".data = "a\r\r\nb".data ∧
    crlfOnly (normalizeLineEndings "a\r\nb".data) = false :=
  ⟨by decide, by decide⟩

/-- C2, amended.  For every input string containing no carriage return,
`normalizeLineEndings` returns a string in which every line break is
exactly the two-character sequence CRLF. -/
theorem c2_amended (s : List Char) (h : ∀ c ∈ s, c ≠ '\r') :
    crlfOnly (normalizeLineEndings s) = true := by
  induction s using normalizeLineEndings.induct with
  | case1 => rfl
  | case2 rest ih =>
    show crlfOnly ('\r' :: '\n' :: normalizeLineEndings rest) = true
    show crlfOnly (normalizeLineEndings rest) = true
    exact ih fun c hc => h c (by simp [hc])
  | case3 c rest hn ih =>
    have hr : c ≠ '\r' := h c (by simp)
    have hc2 : normalizeLineEndings (c :: rest) = c :: normalizeLineEndings rest := by
      rw [normalizeLineEndings.eq_def]
      split
      · rename_i heq; cases heq
      · rename_i rest' heq
        cases heq
        exact absurd rfl (fun hh => hn hh)
      · rename_i c' rest' hne heq
        cases heq
        rfl
    rw [hc2, crlfOnly_cons c _ hr (fun hh => hn hh)]
    exact ih fun x hx => h x (by simp [hx])

/-- C2, witness: the amended theorem applied to the CR-free input
`"a\nb"`. -/
theorem c2_witness : crlfOnly (normalizeLineEndings "a\nb".data) = true :=
  c2_amended "a\nb".data (by decide)

/-! ### Claims C4, C5, C8 -/

theorem lastIdxOf_none (v : List Char) (c : Char) :
    lastIdxOf v c = none ↔ c ∉ v := by
  induction v with
  | nil => simp [lastIdxOf]
  | cons a rest ih =>
    simp only [lastIdxOf]
    cases hrec : lastIdxOf rest c with
    | some i => simp [hrec, ih.not_left.mp (by simp [hrec])]
    | none =>
      have hmem : c ∉ rest := ih.mp hrec
      by_cases hac : a = c <;> simp [hac, hmem]
      exact fun hh => hac hh.symm

/-- C4, confirmed.  If the address extraction of `sendEmail` returns
normally and the extracted `From` or `To` address fails `isValidEmail`,
the compose phase reports the invalid-address outcome and no transport
stage whatsoever is attempted (src/mmg.go:1426-1429: the handler returns
before the goroutine at 1473 is started). -/
theorem c4_invalid_address_no_io (text msgID dateStr fromA toA : List Char)
    (oracle : Stage → Bool) (hasAuth : Bool)
    (hf : extractEmailFromHeaders (parseHeaders (normalizeLineEndings text))
        "from".data = some fromA)
    (ht : extractEmailFromHeaders (parseHeaders (normalizeLineEndings text))
        "to".data = some toA)
    (hinv : isValidEmail fromA = false ∨ isValidEmail toA = false) :
    sendEmailCompose text msgID dateStr = SendOutcome.invalidAddress ∧
    sendEmailStages text msgID dateStr oracle hasAuth = [] := by
  have hc : sendEmailCompose text msgID dateStr = SendOutcome.invalidAddress := by
    unfold sendEmailCompose
    simp only [hf, ht]
    rcases hinv with hiv | hiv <;> simp [hiv]
  exact ⟨hc, by unfold sendEmailStages; rw [hc]⟩

/-- C4, witness: the theorem applied to the message `"Hello"`, whose header
block yields empty (hence invalid) addresses; the stage trace is empty for
every transport oracle. -/
theorem c4_witness :
    sendEmailCompose "Hello".data "<m>".data "D".data
      = SendOutcome.invalidAddress ∧
    sendEmailStages "Hello".data "<m>".data "D".data
      (fun _ => true) false = [] :=
  c4_invalid_address_no_io "Hello".data "<m>".data "D".data [] []
    (fun _ => true) false (by decide) (by decide) (Or.inl (by decide))

/-- C5, counterexample.  The claim states that whenever the looked-up
header value contains both `'<'` and `'>'`, `extractEmailFromHeaders`
returns the substring from the last `'<'` to the last `'>'`.  On the value
`"x> y <z"` (key present, both brackets present) the slice expression
`value[start : end+1]` has inverted bounds (`start = 5 > end + 1 = 2`) and
the code panics instead of returning (src/mmg.go:750); the panic is
modelled by `none`. -/
theorem c5_counterexample :
    mapLookup [("from".data, "x> y <z".data)] (listToLower "from".data)
      = some "x> y <z".data ∧
    ('<' ∈ "x> y <z".data ∧ '>' ∈ "x> y <z".data) ∧
    extractEmailFromHeaders [("from".data, "x> y <z".data)] "from".data
      = none :=
  ⟨by decide, by decide, by decide⟩

/-- C5, amended.  For every header map and key: an absent key yields the
empty string; a present value lacking one of the brackets is returned raw;
a present value containing both brackets, with the last `'<'` at index `s`
and the last `'>'` at index `e` and `s ≤ e + 1`, yields the substring from
index `s` to index `e` inclusive (brackets kept).  When `s > e + 1` the
code panics instead of returning (see the counterexample). -/
theorem c5_extract_address (m : List (List Char × List Char))
    (key : List Char) :
    (mapLookup m (listToLower key) = none →
      extractEmailFromHeaders m key = some [])
  ∧ (∀ v, mapLookup m (listToLower key) = some v →
      ¬('<' ∈ v ∧ '>' ∈ v) → extractEmailFromHeaders m key = some v)
  ∧ (∀ v s e, mapLookup m (listToLower key) = some v →
      lastIdxOf v '<' = some s → lastIdxOf v '>' = some e →
      s ≤ e + 1 →
      extractEmailFromHeaders m key
        = some ((v.drop s).take (e + 1 - s))) := by
  refine ⟨?_, ?_, ?_⟩
  · intro h
    unfold extractEmailFromHeaders
    simp only [h]
  · intro v hv hbr
    unfold extractEmailFromHeaders
    simp only [hv, if_neg hbr]
  · intro v s e hv hs he hle
    have hmem1 : '<' ∈ v := by
      by_contra hh
      rw [(lastIdxOf_none v '<').mpr hh] at hs
      cases hs
    have hmem2 : '>' ∈ v := by
      by_contra hh
      rw [(lastIdxOf_none v '>').mpr hh] at he
      cases he
    unfold extractEmailFromHeaders
    simp only [hv, if_pos (And.intro hmem1 hmem2), hs, he, Option.getD_some,
      if_pos hle]

/-- C5, witness: the amended theorem applied to the two values named by the
spec: `"Name <a@b.com>"` yields `"<a@b.com>"` (brackets kept) and
`"a@b.com"` is returned raw. -/
theorem c5_witness :
    extractEmailFromHeaders [("from".data, "Name <a@b.com>".data)]
        "From".data = some "<a@b.com>".data ∧
    extractEmailFromHeaders [("from".data, "a@b.com".data)]
        "From".data = some "a@b.com".data :=
  ⟨((c5_extract_address [("from".data, "Name <a@b.com>".data)]
      "From".data).2.2 "Name <a@b.com>".data 5 13
      (by decide) (by decide) (by decide) (by decide)).trans (by decide),
    (c5_extract_address [("from".data, "a@b.com".data)]
      "From".data).2.1 "a@b.com".data (by decide) (by decide)⟩

/-- C8, counterexample.  The claim states that `extractEmailFromHeaders`
never panics, and in particular that on the value `"a> b <"` the slice is
in bounds.  In fact the slice `value[5:2]` violates the Go slice bounds
rule and the call panics; the model returns `none` exactly in that case. -/
theorem c8_counterexample :
    extractEmailFromHeaders [("from".data, "a> b <".data)] "from".data
      = none :=
  by decide

/-- C8, amended.  `extractEmailFromHeaders` returns without a panic
provided that, whenever the looked-up value contains both `'<'` and `'>'`,
the index of the last `'<'` is at most one past the index of the last
`'>'`; when the last `'>'` precedes the last `'<'` by more than one
position the slice bounds are inverted and the code panics. -/
theorem c8_no_panic (m : List (List Char × List Char)) (key : List Char)
    (h : ∀ v s e, mapLookup m (listToLower key) = some v →
      lastIdxOf v '<' = some s → lastIdxOf v '>' = some e → s ≤ e + 1) :
    (extractEmailFromHeaders m key).isSome = true := by
  unfold extractEmailFromHeaders
  cases hv : mapLookup m (listToLower key) with
  | none => simp [hv]
  | some v =>
    by_cases hbr : '<' ∈ v ∧ '>' ∈ v
    · simp only [hv, if_pos hbr]
      obtain ⟨i1, hs⟩ : ∃ i, lastIdxOf v '<' = some i := by
        cases hh : lastIdxOf v '<' with
        | none => exact absurd ((lastIdxOf_none v '<').mp hh) (by simp [hbr.1])
        | some i => exact ⟨i, rfl⟩
      obtain ⟨i2, he⟩ : ∃ i, lastIdxOf v '>' = some i := by
        cases hh : lastIdxOf v '>' with
        | none => exact absurd ((lastIdxOf_none v '>').mp hh) (by simp [hbr.2])
        | some i => exact ⟨i, rfl⟩
      simp only [hs, he, Option.getD_some, if_pos (h v i1 i2 hv hs he),
        Option.isSome_some]
    · simp only [hv, if_neg hbr, Option.isSome_some]

/-- C8, witness: the amended theorem applied to a well-formed header map;
the extraction returns normally. -/
theorem c8_witness :
    (extractEmailFromHeaders [("from".data, "Name <a@b.com>".data)]
        "from".data).isSome = true :=
  c8_no_panic [("from".data, "Name <a@b.com>".data)] "from".data
    (by
      intro v s e h1 h2 h3
      have hv : "Name <a@b.com>".data = v := Option.some_inj.mp
        ((show mapLookup [("from".data, "Name <a@b.com>".data)]
          (listToLower "from".data) = some "Name <a@b.com>".data
          by decide).symm.trans h1)
      subst hv
      have h5 : (5 : Nat) = s := Option.some_inj.mp
        ((show lastIdxOf "Name <a@b.com>".data '<' = some 5
          by decide).symm.trans h2)
      have h6 : (13 : Nat) = e := Option.some_inj.mp
        ((show lastIdxOf "Name <a@b.com>".data '>' = some 13
          by decide).symm.trans h3)
      omega)

/-! ### Claim C7 -/

theorem natToDec_ne_nil (n : Nat) : natToDec n ≠ [] := by
  induction n using natToDec.induct with
  | case1 n h => simp [natToDec, h]
  | case2 n h ih =>
    rw [natToDec, if_neg h]
    simp

theorem natToDec_digits (n : Nat) : ∀ x ∈ natToDec n, isDigitCharB x = true := by
  have hd : ∀ v : Fin 10, isDigitCharB (digitChar v.val) = true := by decide
  induction n using natToDec.induct with
  | case1 n h =>
    rw [natToDec, if_pos h]
    intro x hx
    rw [List.mem_singleton] at hx
    subst hx
    exact hd ⟨n, h⟩
  | case2 n h ih =>
    rw [natToDec, if_neg h]
    intro x hx
    rcases List.mem_append.mp hx with hx1 | hx1
    · exact ih x hx1
    · rw [List.mem_singleton] at hx1
      subst hx1
      exact hd ⟨n % 10, Nat.mod_lt _ (by omega)⟩

/-- C7, confirmed.  Every string produced by `generateMessageID` matches
the shape `<R10.TS@H5.T2>`: an opening angle bracket, ten characters from
`[a-z0-9]`, a dot, a nonempty run of decimal digits (the timestamp), an
at sign, five lowercase letters, a dot, two lowercase letters, and a
closing angle bracket. -/
theorem c7_message_id_shape (r1 : Fin 10 → Fin 36) (ts : Nat)
    (rh : Fin 5 → Fin 26) (rt : Fin 2 → Fin 26) :
    ∃ a b c d,
      generateMessageID r1 ts rh rt =
        '<' :: (a ++ '.' :: (b ++ '@' :: (c ++ '.' :: (d ++ ['>'])))) ∧
      a.length = 10 ∧ (∀ x ∈ a, isLowerAlnumChar x = true) ∧
      b ≠ [] ∧ (∀ x ∈ b, isDigitCharB x = true) ∧
      c.length = 5 ∧ (∀ x ∈ c, isLowerAlphaChar x = true) ∧
      d.length = 2 ∧ (∀ x ∈ d, isLowerAlphaChar x = true) := by
  have h36 : ∀ v : Fin 36, isLowerAlnumChar (alphanumericChars.getD v.val 'a') = true := by
    decide
  have h26 : ∀ v : Fin 26, isLowerAlphaChar (Char.ofNat (97 + v.val)) = true := by
    decide
  refine ⟨_, _, _, _, rfl, ?_, ?_, natToDec_ne_nil ts, natToDec_digits ts,
    ?_, ?_, ?_, ?_⟩
  · simp
  · intro x hx
    obtain ⟨i, _, hi⟩ := List.mem_map.mp hx
    exact hi ▸ h36 (r1 i)
  · simp
  · intro x hx
    obtain ⟨i, _, hi⟩ := List.mem_map.mp hx
    exact hi ▸ h26 (rh i)
  · simp
  · intro x hx
    obtain ⟨i, _, hi⟩ := List.mem_map.mp hx
    exact hi ▸ h26 (rt i)

/-! ### Claims C3, C6, C10: the esub token scheme -/

theorem foldl_mix_lt (l : List Nat) (a : Nat) (h : a < 256) :
    l.foldl (fun a b => (a * 131 + b + 1) % 256) a < 256 := by
  induction l generalizing a with
  | nil => exact h
  | cons x rest ih => exact ih _ (Nat.mod_lt _ (by omega))

theorem argon2IDKey_length (p s : List Nat) (t m th k : Nat) :
    (argon2IDKey p s t m th k).length = k := by
  simp [argon2IDKey]

theorem argon2IDKey_lt (p s : List Nat) (t m th k : Nat) :
    ∀ b ∈ argon2IDKey p s t m th k, b < 256 := by
  intro b hb
  obtain ⟨i, _, hi⟩ := List.mem_map.mp hb
  exact hi ▸ foldl_mix_lt _ _ (Nat.mod_lt _ (by omega))

theorem deriveKey_length (key : List Char) : (deriveKey key).length = 32 :=
  argon2IDKey_length _ _ _ _ _ _

theorem wordBytes_lt (w : Nat) : ∀ b ∈ wordBytes w, b < 256 := by
  intro b hb
  simp [wordBytes] at hb
  rcases hb with h | h | h | h <;> subst h <;>
    exact Nat.mod_lt _ (by omega)

theorem chacha20Block_lt (key nonce : List Nat) (c : Nat) :
    ∀ b ∈ chacha20Block key nonce c, b < 256 := by
  intro b hb
  unfold chacha20Block at hb
  obtain ⟨w, _, hw⟩ := List.mem_flatMap.mp hb
  exact wordBytes_lt w b hw

theorem chachaKeystream_lt (key nonce : List Nat) (n : Nat) :
    ∀ b ∈ chachaKeystream key nonce n, b < 256 := by
  intro b hb
  unfold chachaKeystream at hb
  have hb2 := List.mem_of_mem_take hb
  obtain ⟨i, _, hi⟩ := List.mem_flatMap.mp hb2
  exact chacha20Block_lt key nonce i b hi

theorem zipWith_xor_lt (p k : List Nat) (hp : ∀ b ∈ p, b < 256)
    (hk : ∀ b ∈ k, b < 256) :
    ∀ b ∈ List.zipWith Nat.xor p k, b < 256 := by
  induction p generalizing k with
  | nil => intro b hb; simp at hb
  | cons x rest ih =>
    intro b hb
    cases k with
    | nil => simp at hb
    | cons y krest =>
      simp only [List.zipWith_cons_cons, List.mem_cons] at hb
      rcases hb with hb | hb
      · subst hb
        have h256 : (256 : Nat) = 2 ^ 8 := by norm_num
        rw [h256]
        exact Nat.xor_lt_two_pow (h256 ▸ hp x (by simp))
          (h256 ▸ hk y (by simp))
      · exact ih krest (fun b hb2 => hp b (by simp [hb2]))
          (fun b hb2 => hk b (by simp [hb2])) b hb

theorem chacha20XORKeyStream_lt (key nonce plain : List Nat)
    (hp : ∀ b ∈ plain, b < 256) :
    ∀ b ∈ chacha20XORKeyStream key nonce plain, b < 256 :=
  zipWith_xor_lt _ _ hp (chachaKeystream_lt key nonce plain.length)

theorem quarterRound_length (st : List Nat) (a b c d : Nat) :
    (quarterRound st a b c d).length = st.length := by
  simp [quarterRound]

theorem doubleRound_length (st : List Nat) :
    (doubleRound st).length = st.length := by
  simp [doubleRound, quarterRound_length]

theorem chachaRounds_length (n : Nat) (st : List Nat) :
    (chachaRounds n st).length = st.length := by
  induction n generalizing st with
  | zero => rfl
  | succ m ih => rw [chachaRounds, ih, doubleRound_length]

theorem bytesToWords_length (bs : List Nat) :
    (bytesToWords bs).length = bs.length / 4 := by
  induction bs using bytesToWords.induct with
  | case1 b0 b1 b2 b3 rest ih =>
    simp only [bytesToWords, List.length_cons, ih]
    omega
  | case2 bs h =>
    rcases bs with _ | ⟨a, _ | ⟨b, _ | ⟨c, _ | ⟨d, rest⟩⟩⟩⟩
    · simp [bytesToWords]
    · simp [bytesToWords]
    · simp [bytesToWords]
    · simp [bytesToWords]
    · exact (h a b c d rest rfl).elim

theorem flatMap_wordBytes_length (ws : List Nat) :
    (ws.flatMap wordBytes).length = 4 * ws.length := by
  induction ws with
  | nil => rfl
  | cons w rest ih =>
    simp only [List.flatMap_cons, List.length_append, ih, wordBytes,
      List.length_cons]
    simp
    omega

theorem chacha20Block_length (key nonce : List Nat) (c : Nat)
    (hk : key.length = 32) (hn : nonce.length = 12) :
    (chacha20Block key nonce c).length = 64 := by
  unfold chacha20Block
  rw [flatMap_wordBytes_length, List.length_zipWith, chachaRounds_length]
  simp [bytesToWords_length, hk, hn]

theorem chachaKeystream_length_12 (key nonce : List Nat)
    (hk : key.length = 32) (hn : nonce.length = 12) :
    (chachaKeystream key nonce 12).length = 12 := by
  unfold chachaKeystream
  rw [List.length_take]
  have h1 : (12 + 63) / 64 = 1 := by norm_num
  have h2 : List.range 1 = [0] := by decide
  rw [h1, h2, List.flatMap_cons, List.flatMap_nil, List.append_nil,
    chacha20Block_length key nonce 0 hk hn]
  norm_num

theorem textHash_take_lt : ∀ b ∈ textHash.take 12, b < 256 := by decide

theorem textHash_take_length : (textHash.take 12).length = 12 := by decide

theorem chachaXOR_length_12 (key nonce : List Nat)
    (hk : key.length = 32) (hn : nonce.length = 12) :
    (chacha20XORKeyStream key nonce (textHash.take 12)).length = 12 := by
  unfold chacha20XORKeyStream
  rw [List.length_zipWith, textHash_take_length,
    chachaKeystream_length_12 key nonce hk hn]
  norm_num



theorem hexDigitVal_lower (v : Nat) (h : v < 16) :
    hexDigitVal (hexDigitLower v) = some v := by
  have hfin : ∀ w : Fin 16, hexDigitVal (hexDigitLower w.val) = some w.val := by
    decide
  exact hfin ⟨v, h⟩

theorem hexEncode_length (bs : List Nat) :
    (hexEncode bs).length = 2 * bs.length := by
  induction bs with
  | nil => rfl
  | cons b rest ih =>
    simp only [hexEncode] at ih ⊢
    simp only [List.flatMap_cons, List.length_append, ih, List.length_cons]
    simp
    omega

theorem hexDecode_encode (bs : List Nat) (h : ∀ b ∈ bs, b < 256) :
    hexDecode (hexEncode bs) = some bs := by
  induction bs with
  | nil => rfl
  | cons b rest ih =>
    have hb : b < 256 := h b (by simp)
    have h1 : b / 16 < 16 := Nat.div_lt_of_lt_mul (by omega)
    have h2 : b % 16 < 16 := Nat.mod_lt _ (by omega)
    show hexDecode (hexDigitLower (b / 16) :: hexDigitLower (b % 16) ::
      hexEncode rest) = some (b :: rest)
    simp only [hexDecode, hexDigitVal_lower _ h1, hexDigitVal_lower _ h2,
      ih fun x hx => h x (by simp [hx])]
    rw [Nat.div_add_mod b 16]

theorem hexDecode_length (s : List Char) (bs : List Nat)
    (h : hexDecode s = some bs) : s.length = 2 * bs.length := by
  induction s using hexDecode.induct generalizing bs with
  | case1 =>
    simp only [hexDecode, Option.some_inj] at h
    simp [← h]
  | case2 c => simp [hexDecode] at h
  | case3 c1 c2 rest v1 v2 bs' hrest hc2 hc1 ih =>
    simp only [hexDecode, hc1, hc2, hrest, Option.some_inj] at h
    rw [← h]
    simp only [List.length_cons, ih bs' hrest]
    omega
  | case4 c1 c2 rest hfail ih =>
    rcases hv1 : hexDigitVal c1 with _ | v1 <;>
      rcases hv2 : hexDigitVal c2 with _ | v2 <;>
      rcases hr : hexDecode rest with _ | bs2 <;>
      simp only [hexDecode, hv1, hv2, hr] at h <;> try exact Option.noConfusion h
    exact (hfail v1 v2 bs2 hv1 hv2 hr).elim

theorem hexDigitVal_lt (c : Char) (v : Nat) (h : hexDigitVal c = some v) :
    v < 16 := by
  unfold hexDigitVal at h
  split at h
  · simp only [Option.some_inj] at h; omega
  · split at h
    · simp only [Option.some_inj] at h; omega
    · split at h
      · simp only [Option.some_inj] at h; omega
      · cases h

theorem hexDecode_lt (s : List Char) (bs : List Nat)
    (h : hexDecode s = some bs) : ∀ b ∈ bs, b < 256 := by
  induction s using hexDecode.induct generalizing bs with
  | case1 =>
    simp only [hexDecode, Option.some_inj] at h
    simp [← h]
  | case2 c => simp [hexDecode] at h
  | case3 c1 c2 rest v1 v2 bs' hrest hc2 hc1 ih =>
    simp only [hexDecode, hc1, hc2, hrest, Option.some_inj] at h
    rw [← h]
    intro b hb
    rcases List.mem_cons.mp hb with hb1 | hb1
    · have l1 := hexDigitVal_lt c1 v1 hc1
      have l2 := hexDigitVal_lt c2 v2 hc2
      omega
    · exact ih bs' hrest b hb1
  | case4 c1 c2 rest hfail ih =>
    rcases hv1 : hexDigitVal c1 with _ | v1 <;>
      rcases hv2 : hexDigitVal c2 with _ | v2 <;>
      rcases hr : hexDecode rest with _ | bs2 <;>
      simp only [hexDecode, hv1, hv2, hr] at h <;> try exact Option.noConfusion h
    exact (hfail v1 v2 bs2 hv1 hv2 hr).elim

theorem char_toNat_ofNat (n : Nat) (h : n < 55296) :
    (Char.ofNat n).toNat = n := by
  unfold Char.ofNat
  rw [dif_pos (Or.inl h)]
  unfold Char.ofNatAux Char.toNat
  simp only [UInt32.toNat]
  exact BitVec.toNat_ofNatLt _ _

theorem hexDigitVal_upper (c : Char) (v : Nat) (h : hexDigitVal c = some v) :
    hexDigitVal (asciiUpper c) = some v := by
  unfold hexDigitVal at h
  unfold asciiUpper
  by_cases hc : 97 ≤ c.toNat ∧ c.toNat ≤ 122
  · rw [if_pos hc]
    split at h
    · omega
    · split at h
      · rename_i h2
        unfold hexDigitVal
        rw [char_toNat_ofNat _ (by omega)]
        rw [if_neg (by omega), if_neg (by omega), if_pos (by omega)]
        simp only [Option.some_inj] at h ⊢
        omega
      · split at h
        · omega
        · cases h
  · rw [if_neg hc]
    exact h

theorem hexDecode_map_upper (s : List Char) (bs : List Nat)
    (h : hexDecode s = some bs) :
    hexDecode (s.map asciiUpper) = some bs := by
  induction s using hexDecode.induct generalizing bs with
  | case1 => simpa using h
  | case2 c => simp [hexDecode] at h
  | case3 c1 c2 rest v1 v2 bs' hrest hc2 hc1 ih =>
    simp only [hexDecode, hc1, hc2, hrest, Option.some_inj] at h
    simp only [List.map_cons, hexDecode, hexDigitVal_upper c1 v1 hc1,
      hexDigitVal_upper c2 v2 hc2, ih bs' hrest, Option.some_inj]
    exact h
  | case4 c1 c2 rest hfail ih =>
    rcases hv1 : hexDigitVal c1 with _ | v1 <;>
      rcases hv2 : hexDigitVal c2 with _ | v2 <;>
      rcases hr : hexDecode rest with _ | bs2 <;>
      simp only [hexDecode, hv1, hv2, hr] at h <;> try exact Option.noConfusion h
    exact (hfail v1 v2 bs2 hv1 hv2 hr).elim



theorem esubtest_gen (key : List Char) (nonce : List Nat)
    (h12 : nonce.length = 12) (hlt : ∀ b ∈ nonce, b < 256) :
    esubtest key (hexEncode (nonce ++
      chacha20XORKeyStream (deriveKey key) nonce (textHash.take 12))) = true := by
  set c := chacha20XORKeyStream (deriveKey key) nonce (textHash.take 12) with hc
  have hclen : c.length = 12 := chachaXOR_length_12 _ _ (deriveKey_length key) h12
  have hcbytes : ∀ b ∈ c, b < 256 :=
    chacha20XORKeyStream_lt _ _ _ textHash_take_lt
  have hbytes : ∀ b ∈ nonce ++ c, b < 256 := by
    intro b hb
    rcases List.mem_append.mp hb with h | h
    · exact hlt b h
    · exact hcbytes b h
  have hlen48 : (hexEncode (nonce ++ c)).length = 48 := by
    rw [hexEncode_length, List.length_append, h12, hclen]
  have hdec : hexDecode (hexEncode (nonce ++ c)) = some (nonce ++ c) :=
    hexDecode_encode _ hbytes
  have hlen24 : (nonce ++ c).length = 24 := by
    rw [List.length_append, h12, hclen]
  have htake : (nonce ++ c).take 12 = nonce := by
    rw [← h12]; exact List.take_left nonce c
  have hdrop : (nonce ++ c).drop 12 = c := by
    rw [← h12]; exact List.drop_left nonce c
  have hnew : chacha20New (deriveKey key) nonce = true := by
    simp [chacha20New, deriveKey_length, h12]
  unfold esubtest
  rw [if_neg (by simp [hlen48])]
  simp only [hdec]
  rw [if_neg (by simp [hlen24])]
  simp only [htake, hdrop, hnew, if_true]
  simp



/-- C3, confirmed.  For every passphrase and every 12-byte nonce draw,
`esubgen` returns a token that `esubtest` accepts under the same key, and
that token is exactly 48 hexadecimal characters which decode to the nonce
followed by the 12-byte ciphertext. -/
theorem c3_roundtrip (key : List Char) (nonce : List Nat)
    (h12 : nonce.length = 12) (hlt : ∀ b ∈ nonce, b < 256) :
    ∃ tok, esubgen key nonce = some tok ∧ esubtest key tok = true ∧
      tok.length = 48 ∧
      hexDecode tok = some (nonce ++
        chacha20XORKeyStream (deriveKey key) nonce (textHash.take 12)) := by
  have hnew : chacha20New (deriveKey key) nonce = true := by
    simp [chacha20New, deriveKey_length, h12]
  have hclen : (chacha20XORKeyStream (deriveKey key) nonce
      (textHash.take 12)).length = 12 :=
    chachaXOR_length_12 _ _ (deriveKey_length key) h12
  have hbytes : ∀ b ∈ nonce ++ chacha20XORKeyStream (deriveKey key) nonce
      (textHash.take 12), b < 256 := by
    intro b hb
    rcases List.mem_append.mp hb with h | h
    · exact hlt b h
    · exact chacha20XORKeyStream_lt _ _ _ textHash_take_lt b h
  refine ⟨_, ?_, esubtest_gen key nonce h12 hlt, ?_, ?_⟩
  · simp only [esubgen, hnew, if_true]
  · rw [hexEncode_length, List.length_append, h12, hclen]
  · exact hexDecode_encode _ hbytes

/-- C3, witness: the round-trip theorem applied to the passphrase
`"passphrase"` and the all-zero nonce. -/
theorem c3_witness :
    ∃ tok, esubgen "passphrase".data [0,0,0,0,0,0,0,0,0,0,0,0] = some tok ∧
      esubtest "passphrase".data tok = true ∧ tok.length = 48 ∧
      hexDecode tok = some ([0,0,0,0,0,0,0,0,0,0,0,0] ++
        chacha20XORKeyStream (deriveKey "passphrase".data)
          [0,0,0,0,0,0,0,0,0,0,0,0] (textHash.take 12)) :=
  c3_roundtrip "passphrase".data [0,0,0,0,0,0,0,0,0,0,0,0]
    (by decide) (by decide)

/-- C6, confirmed.  A candidate token that is not exactly 48 characters,
or fails hex decoding, is rejected by `esubtest` with result `false` (no
error escapes); and `esubtest` accepts exactly when the token is 48
characters whose bytes split into a nonce and a ciphertext equal to the
recomputed expected ciphertext. -/
theorem c6_token_format (key s : List Char) :
    (s.length ≠ 48 → esubtest key s = false)
  ∧ (hexDecode s = none → esubtest key s = false)
  ∧ (esubtest key s = true ↔ ∃ bs, s.length = 48 ∧ hexDecode s = some bs ∧
      chacha20XORKeyStream (deriveKey key) (bs.take 12) (textHash.take 12)
        = bs.drop 12) := by
  refine ⟨?_, ?_, ?_⟩
  · intro h
    unfold esubtest
    rw [if_pos h]
  · intro h
    unfold esubtest
    by_cases hl : s.length ≠ 48
    · rw [if_pos hl]
    · rw [if_neg hl]
      simp only [h]
  · constructor
    · intro h
      unfold esubtest at h
      by_cases hl : s.length = 48
      · rw [if_neg (by omega)] at h
        cases hd : hexDecode s with
        | none => simp only [hd] at h; exact absurd h (by simp)
        | some bs =>
          simp only [hd] at h
          have hblen : bs.length = 24 := by
            have := hexDecode_length s bs hd
            omega
          rw [if_neg (by omega)] at h
          have hnew : chacha20New (deriveKey key) (bs.take 12) = true := by
            simp [chacha20New, deriveKey_length, List.length_take, hblen]
          simp only [hnew, if_true] at h
          have heq : hexEncode (chacha20XORKeyStream (deriveKey key)
              (bs.take 12) (textHash.take 12)) = hexEncode (bs.drop 12) :=
            eq_of_beq h
          have e_lt := chacha20XORKeyStream_lt (deriveKey key) (bs.take 12)
            (textHash.take 12) textHash_take_lt
          have r_lt : ∀ b ∈ bs.drop 12, b < 256 := fun b hb =>
            hexDecode_lt s bs hd b (List.mem_of_mem_drop hb)
          have h1 := hexDecode_encode _ e_lt
          have h2 := hexDecode_encode _ r_lt
          rw [heq] at h1
          exact ⟨bs, hl, rfl, Option.some_inj.mp (h1.symm.trans h2)⟩
      · rw [if_pos hl] at h
        exact absurd h (by simp)
    · rintro ⟨bs, hl, hd, heq⟩
      unfold esubtest
      rw [if_neg (by omega)]
      simp only [hd]
      have hblen : bs.length = 24 := by
        have := hexDecode_length s bs hd
        omega
      rw [if_neg (by omega)]
      have hnew : chacha20New (deriveKey key) (bs.take 12) = true := by
        simp [chacha20New, deriveKey_length, List.length_take, hblen]
      simp only [hnew, if_true, heq]
      simp

/-- C6, witness: the rejection branch applied to the three-character
token `"xyz"`. -/
theorem c6_witness : esubtest "k".data "xyz".data = false :=
  (c6_token_format "k".data "xyz".data).1 (by decide)

/-- C10, confirmed.  Token verification is invariant under upper-casing
the hex digits: any accepted token is still accepted after mapping its
characters to upper case (hex decoding accepts both cases and the length
check is unchanged). -/
theorem c10_case_invariance (key t : List Char)
    (h : esubtest key t = true) :
    esubtest key (t.map asciiUpper) = true := by
  unfold esubtest at h ⊢
  by_cases hl : t.length = 48
  · have hl2 : (t.map asciiUpper).length = 48 := by simp [hl]
    rw [if_neg (by omega)] at h
    rw [if_neg (by omega)]
    cases hd : hexDecode t with
    | none =>
      simp only [hd] at h
      exact absurd h (by simp)
    | some bs =>
      simp only [hd] at h
      rw [hexDecode_map_upper t bs hd]
      exact h
  · rw [if_pos hl] at h
    exact absurd h (by simp)

/-- C10, witness: a freshly generated token for key `"k"` and the
all-zero nonce is accepted, and so is its upper-cased form. -/
theorem c10_witness :
    esubtest "k".data (hexEncode ([0,0,0,0,0,0,0,0,0,0,0,0] ++
      chacha20XORKeyStream (deriveKey "k".data) [0,0,0,0,0,0,0,0,0,0,0,0]
        (textHash.take 12))) = true ∧
    esubtest "k".data ((hexEncode ([0,0,0,0,0,0,0,0,0,0,0,0] ++
      chacha20XORKeyStream (deriveKey "k".data) [0,0,0,0,0,0,0,0,0,0,0,0]
        (textHash.take 12))).map asciiUpper) = true := by
  have h := esubtest_gen "k".data [0,0,0,0,0,0,0,0,0,0,0,0]
    (by decide) (by decide)
  exact ⟨h, c10_case_invariance _ _ h⟩


end Mmg
